import Mathlib

/-!
Verification of the PivotalGamesUnpacker scripts (undat.py, redat.py,
main.py, new.py) against their natural-language specification.

Conventions of the shallow embedding:
* Python `bytes` values are `List Nat` (each element a byte value 0..255).
* Python strings are Lean `String`; character-level operations go through
  `String.data`.
* Machine 32-bit arithmetic is `Nat` with explicit `% 4294967296` where the
  source masks with `0xFFFFFFFF`.
* File-system effects are made explicit: the extractor returns the ordered
  list of (relative file name, data) writes it performs, the lines it appends
  to `data/FileNames.list`, and its in-memory name map; the repacker takes
  the list of (relative path, data) files of the source tree and returns the
  archive bytes, with a raised Python exception modelled as `Except.error`.
-/

/-- Codepoints of a string's characters (used to model Python byte strings
such as the magic tags `b"DDS "`). -/

def strBytes (s : String) : List Nat := s.data.map Char.toNat

/-- Python `str.encode("ascii", errors="ignore")` from `ce_hash`: characters
with codepoint below 128 are kept, all others are silently dropped. -/

def asciiEncode (s : String) : List Nat :=
  (s.data.filter (fun c => c.toNat < 128)).map Char.toNat

/-- One iteration of the loop body of `ce_hash` (undat.py lines 63-76):
taps are bit 31 (the C# sign bit), bit 21, bit 1 and bit 0; the register is
shifted left masked to 32 bits and the new low bit is the xor of the taps
with the current input bit `x`. -/

def ceHashStep (dwHash : Nat) (x : Bool) : Nat :=
  let d := dwHash &&& 2147483648 != 0
  let a := dwHash &&& 2097152 != 0
  let b := dwHash &&& 2 != 0
  let c := dwHash &&& 1 != 0
  let sh := (dwHash <<< 1) % 4294967296
  if d ^^ (a ^^ (b ^^ (c ^^ x))) then sh ||| 1 else sh

/-- The iteration of `ce_hash` with the source's cursor state: `j` is the
byte cursor into `encoded` and `bCounter` the bit mask (1,2,4,...,128);
`encoded[j]` is read as 0 past the end of the list, exactly as
`encoded[j] if j < len(encoded) else 0` does. The first argument counts the
remaining iterations. -/

def ceHashLoop (encoded : List Nat) : Nat → Nat → Nat → Nat → Nat
  | 0, dwHash, _, _ => dwHash
  | i + 1, dwHash, j, bCounter =>
    let current := encoded.getD j 0
    let x := current &&& bCounter != 0
    let h := ceHashStep dwHash x
    let b := bCounter <<< 1
    if b = 0 ∨ b > 128 then ceHashLoop encoded i h (j + 1) 1
    else ceHashLoop encoded i h j b

/-- `ce_hash` (undat.py lines 57-77, identical in redat.py, main.py, new.py):
the register starts at 1 and `8 * len(input_string)` iterations are run over
the ASCII-encoded bytes. -/

def ce_hash (s : String) : Nat :=
  ceHashLoop (asciiEncode s) (8 * s.length) 1 0 1

/-- Input bit `i` of an encoded byte sequence, LSB-first within each byte,
reading 0 past the end of the sequence. -/

def lfsrBit (encoded : List Nat) (i : Nat) : Bool :=
  encoded.getD (i / 8) 0 &&& 2 ^ (i % 8) != 0

/-- Cursor-free form of the `ce_hash` iteration: run `k` steps of
`ceHashStep`, feeding global input-bit indices `i, i+1, ...`. -/

def lfsrRun (encoded : List Nat) : Nat → Nat → Nat → Nat
  | 0, dwHash, _ => dwHash
  | k + 1, dwHash, i => lfsrRun encoded k (ceHashStep dwHash (lfsrBit encoded i)) (i + 1)

/-! ## Archive table codec: byte-level primitives -/

/-- Little-endian 4-byte encoding, as produced by `struct.pack("<I", x)` for
`x < 2^32` (redat.py line 163, new.py line 261, main.py line 272). -/

def u32le (x : Nat) : List Nat :=
  [x % 256, x / 256 % 256, x / 65536 % 256, x / 16777216 % 256]

/-- Little-endian 4-byte decoding, as done by `struct.unpack("<III", chunk)`
on each 4-byte field of a 12-byte chunk; bytes missing from the list read
as 0 (never hit in the sources, which check the chunk length first). -/

def readU32 (bs : List Nat) : Nat :=
  bs.getD 0 0 + 256 * bs.getD 1 0 + 65536 * bs.getD 2 0 + 16777216 * bs.getD 3 0

/-- One 12-byte table record `(fingerprint, offset, size)`. -/

def encRecord (h o s : Nat) : List Nat := u32le h ++ u32le o ++ u32le s

/-- Concatenation of table records. -/

def encRecords (rs : List (Nat × Nat × Nat)) : List Nat :=
  (rs.map (fun r => encRecord r.1 r.2.1 r.2.2)).flatten

/-- The blob read `f.seek(off); f.read(sz)`: at most `sz` bytes starting at
absolute offset `off` (shorter if the file ends first, exactly as
`file.read` behaves). -/

def dataAt (A : List Nat) (off sz : Nat) : List Nat := (A.drop off).take sz

/-- Fuelled form of the table-parsing loop of `unpack_dat` (new.py lines
155-162, main.py lines 139-150): read 12-byte chunks from the front, stop on
a short read or on fingerprint 0, otherwise collect `(hash, offset, size)`.
The fuel only bounds the recursion depth; `parseTable` supplies enough. -/

def parseTableF : Nat → List Nat → List (Nat × Nat × Nat)
  | 0, _ => []
  | fuel + 1, bs =>
    if bs.length < 12 then []
    else
      let dwHash := readU32 (bs.take 4)
      if dwHash = 0 then []
      else
        (dwHash, readU32 ((bs.drop 4).take 4), readU32 ((bs.drop 8).take 4)) ::
          parseTableF fuel (bs.drop 12)

/-- `parseTable` reads sequential 12-byte records from the stream start
(new.py `unpack_dat`, table phase). -/

def parseTable (bs : List Nat) : List (Nat × Nat × Nat) :=
  parseTableF (bs.length / 12 + 1) bs

/-! ## Archive table codec: writer (redat.py lines 139-172, new.py
`repack_dat` lines 249-269, main.py `repack_dat` lines 258-282) -/

/-- The offset-assignment pass: starting from the end of the table, each
entry gets the current offset and advances it by the blob's size (the
`current_offset += fsize` loop). The blob is carried along; its length is
the entry's size (`os.path.getsize` equals the length of the bytes that the
writer then copies in full). -/

def packEntries : List (Nat × List Nat) → Nat → List (Nat × Nat × List Nat)
  | [], _ => []
  | (h, data) :: rest, off => (h, off, data) :: packEntries rest (off + data.length)

/-- The writer's output: the table records in order, the `(0,0,0)` sentinel
record, then the blobs' raw bytes in the same order. The table size is
`12 * (n + 1)` and data starts right after it. -/

def encodeDat (entries : List (Nat × List Nat)) : List Nat :=
  let packed := packEntries entries (12 * (entries.length + 1))
  encRecords (packed.map (fun p => (p.1, p.2.1, p.2.2.length))) ++
    encRecord 0 0 0 ++ (packed.map (fun p => p.2.2)).flatten

/-! ## Python string helpers -/

/-- Character-wise case lowering, modelling `str.lower()` on the ASCII
names this tool handles. -/

def pyLower (s : String) : String := String.mk (s.data.map Char.toLower)

/-- Character-wise case raising, modelling `str.upper()`. -/

def pyUpper (s : String) : String := String.mk (s.data.map Char.toUpper)

/-- Python whitespace for `str.strip()`: space, tab, LF, VT, FF, CR. -/

def pyIsSpace (c : Char) : Bool :=
  c.toNat = 32 ∨ c.toNat = 9 ∨ c.toNat = 10 ∨ c.toNat = 11 ∨ c.toNat = 12 ∨ c.toNat = 13

/-- `str.strip()`: drop leading and trailing whitespace. -/

def pyStrip (s : String) : String :=
  String.mk (((s.data.dropWhile pyIsSpace).reverse.dropWhile pyIsSpace).reverse)

/-! ## Name catalog loaders -/

/-- Keep-first insert (undat.py lines 96-99): `if key not in dict:
dict[key] = value`. The dictionary is an association list; since a key is
inserted at most once, appending preserves lookup semantics. -/

def insertKeepFirst (d : List (Nat × String)) (k : Nat) (v : String) : List (Nat × String) :=
  match d.lookup k with
  | some _ => d
  | none => d ++ [(k, v)]

/-- `load_filenames_list` (undat.py lines 82-103): for each stripped
non-blank line, insert `ce_hash(lower(line)) ↦ line` and
`ce_hash(upper(line)) ↦ line`, keeping the first binding on a collision
(this variant logs nothing). The backing file is given as its lines. -/

def load_filenames_list (lines : List String) : List (Nat × String) :=
  lines.foldl
    (fun d raw =>
      let line := pyStrip raw
      if line = "" then d
      else insertKeepFirst (insertKeepFirst d (ce_hash (pyLower line)) line)
        (ce_hash (pyUpper line)) line)
    []

/-- State of the overwrite-on-collision loader: the fingerprint dictionary
and the list of reported `[COLLISION]` pairs (previous name, new line). -/

structure HashListState where
  dict : List (Nat × String)
  log : List (String × String)

/-- Overwriting insert with collision report (main.py lines 97-103,
redat.py lines 90-96, new.py lines 67-73): a present key records the
collision pair and the binding is replaced. The new binding is prepended so
association-list lookup sees the latest binding, matching Python dict
assignment. -/

def insertOverwrite (st : HashListState) (k : Nat) (v : String) : HashListState :=
  match st.dict.lookup k with
  | some old => { dict := (k, v) :: st.dict, log := st.log ++ [(old, v)] }
  | none => { dict := (k, v) :: st.dict, log := st.log }

/-- Processing one raw line of the list file in `load_hash_list`. -/

def hashListLine (st : HashListState) (raw : String) : HashListState :=
  let line := pyStrip raw
  if line = "" then st
  else insertOverwrite (insertOverwrite st (ce_hash (pyLower line)) line)
    (ce_hash (pyUpper line)) line

/-- `load_hash_list` (main.py lines 72-108; the same logic appears as
redat.py `load_filenames_list` and new.py `load_hash_list`). -/

def load_hash_list (lines : List String) : HashListState :=
  lines.foldl hashListLine ⟨[], []⟩

/-- The stripped, non-blank lines the loaders actually process. -/

def cleanedLines (lines : List String) : List String :=
  (lines.map pyStrip).filter (fun l => l != "")

/-! ## Content sniffer -/

/-- `guess_extension` (undat.py lines 106-135; new.py lines 83-122 checks
the same conditions with the `02000000` rule at a different position, which
cannot change the result because the patterns are mutually exclusive). The
final fallback models `data[:256].decode("ascii")`, which succeeds exactly
when every byte value of the first 256 bytes is below 128. -/

def guess_extension (data : List Nat) : String :=
  if data.length < 4 then "bin"
  else if data.take 4 = strBytes "DDS " then "dds"
  else if data.take 4 = strBytes "PSF " then "psf"
  else if data.take 4 = strBytes "SCH " then "sch"
  else if data.take 4 = strBytes "EOBJ" then "eobj"
  else if (data.take 4).drop 1 = strBytes "PNG" then "png"
  else if data.take 4 = [2, 0, 0, 0] then "bin"
  else if data.take 4 = strBytes "imgf" then "imgf"
  else if data.take 4 = strBytes "SLOC" then "sloc"
  else if (data.take 4).take 2 = strBytes "BM" then "bmp"
  else if (data.take 256).all (fun b => b < 128) then "txt"
  else "bin"

/-- Whether any magic-byte rule of `guess_extension` fires. -/

def sigMatch (data : List Nat) : Bool :=
  (data.take 4 == strBytes "DDS ") || (data.take 4 == strBytes "PSF ") ||
  (data.take 4 == strBytes "SCH ") || (data.take 4 == strBytes "EOBJ") ||
  ((data.take 4).drop 1 == strBytes "PNG") || (data.take 4 == [2, 0, 0, 0]) ||
  (data.take 4 == strBytes "imgf") || (data.take 4 == strBytes "SLOC") ||
  ((data.take 4).take 2 == strBytes "BM")

/-- `extract_eobj_internal_name` (undat.py lines 137-153): scan from byte
offset 8, collecting consecutive printable ASCII bytes (32..126) up to the
first null or non-printable byte, decode, and strip whitespace. -/

def extract_eobj_internal_name (data : List Nat) : String :=
  if data.length ≤ 8 then ""
  else pyStrip (String.mk (((data.drop 8).takeWhile
    (fun b => 32 ≤ b ∧ b ≤ 126)).map Char.ofNat))

/-- The characters deleted by undat.py's output sanitizer
`re.sub(r'[<>:"/\\|?*]', "", name)` (lines 192 and 210). -/

def badChar (c : Char) : Bool :=
  c = '<' ∨ c = '>' ∨ c = ':' ∨ c = '"' ∨ c = '/' ∨ c = '\\' ∨ c = '|' ∨ c = '?' ∨ c = '*'

/-- The sanitized output name: every reserved character deleted. -/

def sanitizeName (s : String) : String :=
  String.mk (s.data.filter (fun c => !badChar c))

/-! ## Extractor (undat.py `main`, lines 156-232) -/

/-- Observable state of one undat.py run: the in-memory name map, the lines
appended to the backing `FileNames.list`, the ordered (relative output
name, data) file writes, and the fingerprints already processed. -/

structure UndatState where
  nameMap : List (Nat × String)
  appended : List String
  writes : List (String × List Nat)
  seen : List Nat

/-- Fuelled main loop of undat.py (lines 170-231): read the 12-byte record
at the cursor, stop on a short read or a zero fingerprint, skip an already
processed fingerprint, read the blob at its absolute offset, then either
use the catalog name (sanitized), or sniff: an `eobj` blob with a
recoverable internal name is learned (map insert plus two appended
companion lines) and saved as `name.EVO`; any other unknown blob is saved
as `<fingerprint>.<extension>`. `A` is the whole archive (the data reads
are absolute seeks), `rest` the unread tail of the table region. The fuel
only bounds recursion depth; `undatMain` supplies enough. -/

def undatLoopF (A : List Nat) : Nat → List Nat → UndatState → UndatState
  | 0, _, st => st
  | fuel + 1, rest, st =>
    if rest.length < 12 then st
    else
      let dwHash := readU32 (rest.take 4)
      if dwHash = 0 then st
      else if dwHash ∈ st.seen then undatLoopF A fuel (rest.drop 12) st
      else
        let dwOffset := readU32 ((rest.drop 4).take 4)
        let dwSize := readU32 ((rest.drop 8).take 4)
        let data := dataAt A dwOffset dwSize
        let st1 : UndatState :=
          match st.nameMap.lookup dwHash with
          | some mappedName =>
            { st with
              seen := dwHash :: st.seen,
              writes := st.writes ++ [(sanitizeName mappedName, data)] }
          | none =>
            if guess_extension data = "eobj" then
              if extract_eobj_internal_name data ≠ "" then
                { nameMap := st.nameMap ++ [(dwHash, extract_eobj_internal_name data)],
                  appended := st.appended ++
                    [extract_eobj_internal_name data ++ ".EVO",
                     extract_eobj_internal_name data ++ ".DDS"],
                  writes := st.writes ++
                    [(sanitizeName (extract_eobj_internal_name data) ++ ".EVO", data)],
                  seen := dwHash :: st.seen }
              else
                { st with
                  seen := dwHash :: st.seen,
                  writes := st.writes ++ [(toString dwHash ++ ".eobj", data)] }
            else
              { st with
                seen := dwHash :: st.seen,
                writes := st.writes ++
                  [(toString dwHash ++ "." ++ guess_extension data, data)] }
        undatLoopF A fuel (rest.drop 12) st1

/-- One undat.py run on archive `A` with backing list contents `lines`. -/

def undatMain (A : List Nat) (lines : List String) : UndatState :=
  undatLoopF A (A.length / 12 + 1) A ⟨load_filenames_list lines, [], [], []⟩

/-! ## Builder (redat.py `main`, lines 118-176) -/

/-- The stem `relpath.split(".")[0]` (redat.py line 151): the part of the
path before the first dot. -/

def splitStem (s : String) : String := String.mk (s.data.takeWhile (fun c => c ≠ '.'))

/-- Python `int(s)` on a decimal string, as a natural number; `none` models
the `ValueError` raised on non-digit input. (Python also accepts
surrounding whitespace, an optional sign and underscores between digits;
of those only digits can reach `struct.pack("<I", ...)` without raising
there instead, so a raised exception is faithful for the rest as well.) -/

def pyIntNat (s : String) : Option Nat :=
  if s.data ≠ [] ∧ s.data.all Char.isDigit then
    some (s.data.foldl (fun n c => 10 * n + (c.toNat - 48)) 0)
  else none

/-- The membership test `relpath in mapped_files` of redat.py line 148,
where `mapped_files = {v: k for k, v in filenames_list.items()}` (line
125): `relpath` is a key of the inverted dictionary exactly when it is a
value of the loaded dictionary, i.e. some fingerprint looks it up. -/

def inMappedFiles (d : List (Nat × String)) (name : String) : Bool :=
  (d.map (fun e => e.1)).any (fun k => d.lookup k == some name)

/-- Fingerprint assignment for one file (redat.py lines 148-151): a
catalog-known relative path is re-hashed with `ce_hash(relpath.lower())`;
otherwise the filename stem must parse as a literal decimal fingerprint,
`none` modelling the uncaught `ValueError`. -/

def redatResolve (d : List (Nat × String)) (relpath : String) : Option Nat :=
  if inMappedFiles d relpath then some (ce_hash (pyLower relpath))
  else pyIntNat (splitStem relpath)

/-- The entry-collection loop of redat.py lines 144-156 over the gathered
(relative path, file data) list: an unresolvable file raises, aborting the
whole run (there is no try/except around `int(...)`). -/

def resolveFiles (d : List (Nat × String)) :
    List (String × List Nat) → Except String (List (Nat × List Nat))
  | [] => .ok []
  | (rp, data) :: rest =>
    match redatResolve d rp with
    | some h => (resolveFiles d rest).map (fun es => (h, data) :: es)
    | none => .error ("ValueError: invalid literal for int() with base 10: " ++ splitStem rp)

/-- One redat.py run: load the (overwrite-variant) name list, resolve every
gathered file to a fingerprint, then emit the table, sentinel and blobs via
the two-pass writer. The range check models `struct.pack("<I", ...)`
raising `struct.error` on a value outside 32 bits (in the script this would
abort mid-write; the claims only depend on the run failing). -/

def redatBuild (lines : List String) (files : List (String × List Nat)) :
    Except String (List Nat) :=
  match resolveFiles (load_hash_list lines).dict files with
  | .error e => .error e
  | .ok entries =>
    if (entries.all (fun e => e.1 < 4294967296)) ∧
        12 * (entries.length + 1) + (entries.map (fun e => e.2.length)).sum < 4294967296 then
      .ok (encodeDat entries)
    else .error "struct.error: argument out of range"

/-! ## Round trip: Builder ∘ Extractor -/

/-! ## Theorems -/

/-- The cursor pair `(j, 2^r)` of `ceHashLoop` tracks the global bit index
`8 * j + r`. -/

theorem ceHashLoop_eq_lfsrRun (enc : List Nat) :
    ∀ (k h j r : Nat), r < 8 →
      ceHashLoop enc k h j (2 ^ r) = lfsrRun enc k h (8 * j + r) := by
  intro k
  induction k with
  | zero => intro h j r _; rfl
  | succ k ih =>
    intro h j r hr
    have hbit : (enc.getD j 0 &&& 2 ^ r != 0) = lfsrBit enc (8 * j + r) := by
      have hdiv : (8 * j + r) / 8 = j := by omega
      have hmod : (8 * j + r) % 8 = r := by omega
      simp [lfsrBit, hdiv, hmod]
    have hshift : (2 ^ r) <<< 1 = 2 ^ (r + 1) := by
      rw [Nat.shiftLeft_eq, pow_one, pow_succ]
    by_cases h7 : r = 7
    · subst h7
      have hcond : (2 ^ (7 + 1) : Nat) = 0 ∨ (2 ^ (7 + 1) : Nat) > 128 := by
        right; norm_num
      simp only [ceHashLoop, hbit, hshift, if_pos hcond]
      have := ih (ceHashStep h (lfsrBit enc (8 * j + 7))) (j + 1) 0 (by norm_num)
      simp only [pow_zero] at this
      rw [this]
      have : 8 * (j + 1) + 0 = 8 * j + 7 + 1 := by omega
      rw [this]
      rfl
    · have hr7 : r + 1 < 8 := by omega
      have hcond : ¬ ((2 ^ (r + 1) : Nat) = 0 ∨ (2 ^ (r + 1) : Nat) > 128) := by
        push_neg
        constructor
        · positivity
        · calc (2 ^ (r + 1) : Nat) ≤ 2 ^ 7 := Nat.pow_le_pow_right (by norm_num) (by omega)
            _ = 128 := by norm_num
      simp only [ceHashLoop, hbit, hshift, if_neg hcond]
      have := ih (ceHashStep h (lfsrBit enc (8 * j + r))) j (r + 1) hr7
      rw [this]
      have : 8 * j + (r + 1) = 8 * j + r + 1 := by omega
      rw [this]
      rfl

/-- The register stays below `2^32` through every step. -/

theorem ceHashStep_lt (dwHash : Nat) (x : Bool) :
    ceHashStep dwHash x < 4294967296 := by
  unfold ceHashStep
  dsimp only
  have hsh : (dwHash <<< 1) % 4294967296 < 4294967296 := Nat.mod_lt _ (by norm_num)
  split
  · have : (4294967296 : Nat) = 2 ^ 32 := by norm_num
    rw [this] at hsh ⊢
    exact Nat.or_lt_two_pow hsh (by norm_num)
  · exact hsh

/-- `ceHashLoop` always returns a value below `2^32` once it has run at
least one step, and preserves a below-`2^32` register in general. -/

theorem ceHashLoop_lt (enc : List Nat) :
    ∀ (k h j b : Nat), h < 4294967296 → ceHashLoop enc k h j b < 4294967296 := by
  intro k
  induction k with
  | zero => intro h j b hh; exact hh
  | succ k ih =>
    intro h j b hh
    unfold ceHashLoop
    dsimp only
    split <;> exact ih _ _ _ (ceHashStep_lt _ _)

/-- `ce_hash` fits in 32 bits. -/

theorem ce_hash_lt (s : String) : ce_hash s < 4294967296 :=
  ceHashLoop_lt _ _ _ _ _ (by norm_num)

/-- C2: `ce_hash` is a total deterministic function of the text. It runs
exactly `8 × (character count)` LFSR iterations over the ASCII-encoded byte
sequence (non-ASCII characters silently dropped by the encoding), input bits
past the end of the encoded bytes read as 0 — so dropped characters influence
the result only through the iteration count, which is what the third conjunct
states: two texts with the same encoding and the same character count hash
identically. `ce_hash "" = 1` since zero iterations leave the initial
register value unchanged. -/

theorem c2_hash_total_lfsr :
    ce_hash "" = 1 ∧
    (∀ s : String, ce_hash s = lfsrRun (asciiEncode s) (8 * s.length) 1 0) ∧
    (∀ s t : String, asciiEncode s = asciiEncode t → s.length = t.length →
      ce_hash s = ce_hash t) := by
  refine ⟨rfl, ?_, ?_⟩
  · intro s
    have := ceHashLoop_eq_lfsrRun (asciiEncode s) (8 * s.length) 1 0 0 (by norm_num)
    simpa using this
  · intro s t henc hlen
    have hs := ceHashLoop_eq_lfsrRun (asciiEncode s) (8 * s.length) 1 0 0 (by norm_num)
    have ht := ceHashLoop_eq_lfsrRun (asciiEncode t) (8 * t.length) 1 0 0 (by norm_num)
    unfold ce_hash
    simp only [pow_zero] at hs ht
    rw [hs, ht, henc, hlen]

/-- Witness for C2: the hypotheses of the third conjunct are satisfiable —
`"aé"` and `"aπ"` ASCII-encode identically (`[97]`) and have character
count 2, so they share a fingerprint. -/

theorem c2_hash_total_lfsr_witness : ce_hash "aé" = ce_hash "aπ" :=
  c2_hash_total_lfsr.2.2 "aé" "aπ" (by decide) (by decide)

theorem u32le_length (x : Nat) : (u32le x).length = 4 := rfl

theorem readU32_u32le {x : Nat} (hx : x < 4294967296) : readU32 (u32le x) = x := by
  simp only [u32le, readU32, List.getD]
  simp only [List.get?_eq_getElem?, List.getElem?_cons_zero, List.getElem?_cons_succ,
    Option.getD_some]
  omega

theorem encRecord_length (h o s : Nat) : (encRecord h o s).length = 12 := rfl

theorem encRecords_length (rs : List (Nat × Nat × Nat)) :
    (encRecords rs).length = 12 * rs.length := by
  induction rs with
  | nil => rfl
  | cons r rs ih =>
    simp only [encRecords, List.map_cons, List.flatten_cons, List.length_append,
      encRecord_length, List.length_cons] at *
    omega

theorem take4_append (x : Nat) (l : List Nat) : (u32le x ++ l).take 4 = u32le x :=
  List.take_left' rfl

theorem drop4_append (x : Nat) (l : List Nat) : (u32le x ++ l).drop 4 = l :=
  List.drop_left' rfl

/-- Reading one well-formed record from the front of the stream. -/

theorem parseTableF_cons (fuel h o s : Nat) (tail : List Nat)
    (hh : h < 4294967296) (ho : o < 4294967296) (hs : s < 4294967296) (hnz : h ≠ 0) :
    parseTableF (fuel + 1) (encRecord h o s ++ tail) =
      (h, o, s) :: parseTableF fuel tail := by
  have hlen : (encRecord h o s ++ tail).length = 12 + tail.length := by
    simp [encRecord_length]
  have htake4 : (encRecord h o s ++ tail).take 4 = u32le h := by
    simp only [encRecord, List.append_assoc]
    exact take4_append h _
  have hdrop4 : (encRecord h o s ++ tail).drop 4 = u32le o ++ (u32le s ++ tail) := by
    simp only [encRecord, List.append_assoc]
    exact drop4_append h _
  have hdrop8 : (encRecord h o s ++ tail).drop 8 = u32le s ++ tail := by
    have : (8 : Nat) = 4 + 4 := rfl
    rw [this, ← List.drop_drop, hdrop4]
    exact drop4_append o _
  have hdrop12 : (encRecord h o s ++ tail).drop 12 = tail := by
    have : (12 : Nat) = 8 + 4 := rfl
    rw [this, ← List.drop_drop, hdrop8]
    exact drop4_append s _
  simp only [parseTableF, hlen, htake4, hdrop4, hdrop8, hdrop12,
    readU32_u32le hh, take4_append, readU32_u32le ho, readU32_u32le hs]
  rw [if_neg (by omega), if_neg hnz]

/-- A stream that is too short for another record, or whose next fingerprint
field is 0, ends the parse with no further output. -/

theorem parseTableF_stop (fuel : Nat) (suffix : List Nat)
    (hstop : suffix.length < 12 ∨ suffix.take 4 = u32le 0) :
    parseTableF fuel suffix = [] := by
  cases fuel with
  | zero => rfl
  | succ fuel =>
    rcases hstop with hshort | hzero
    · simp [parseTableF, hshort]
    · unfold parseTableF
      by_cases hlen : suffix.length < 12
      · simp [hlen]
      · simp only [if_neg hlen, hzero]
        rw [if_pos (by simp [readU32, u32le])]

/-- Parsing a stream of well-formed nonzero records followed by any stopper
(sentinel or short tail) returns exactly the records, given enough fuel. -/

theorem parseTableF_encRecords :
    ∀ (recs : List (Nat × Nat × Nat)) (fuel : Nat) (suffix : List Nat),
      (∀ r ∈ recs, r.1 ≠ 0 ∧ r.1 < 4294967296 ∧ r.2.1 < 4294967296 ∧ r.2.2 < 4294967296) →
      (suffix.length < 12 ∨ suffix.take 4 = u32le 0) →
      recs.length < fuel →
      parseTableF fuel (encRecords recs ++ suffix) = recs := by
  intro recs
  induction recs with
  | nil =>
    intro fuel suffix _ hstop _
    simpa [encRecords] using parseTableF_stop fuel suffix hstop
  | cons r recs ih =>
    intro fuel suffix hr hstop hfuel
    obtain ⟨h, o, s⟩ := r
    cases fuel with
    | zero => omega
    | succ fuel =>
      have hr0 := hr (h, o, s) (List.mem_cons_self _ _)
      have : encRecords ((h, o, s) :: recs) ++ suffix =
          encRecord h o s ++ (encRecords recs ++ suffix) := by
        simp [encRecords, List.append_assoc]
      rw [this, parseTableF_cons fuel h o s _ hr0.2.1 hr0.2.2.1 hr0.2.2.2 hr0.1]
      rw [ih fuel suffix (fun x hx => hr x (List.mem_cons_of_mem _ hx)) hstop
        (by simpa using Nat.lt_of_succ_lt_succ hfuel)]

/-- C3: `parseTable` reads sequential 12-byte little-endian records from the
stream start; it stops, discarding the current record, at the first record
whose fingerprint is 0 (sentinel, not emitted) or at a short read of fewer
than 12 bytes (end of table, not an error). Hence a stream of `N` nonzero
records followed by a `(0,0,0)` sentinel and arbitrary trailing bytes parses
to exactly the `N` records (first conjunct), and so does a stream of `N`
records followed by any short tail (second conjunct). -/

theorem c3_parse_table_sentinel (recs : List (Nat × Nat × Nat))
    (hr : ∀ r ∈ recs, r.1 ≠ 0 ∧ r.1 < 4294967296 ∧ r.2.1 < 4294967296 ∧ r.2.2 < 4294967296) :
    (∀ trailing : List Nat,
      parseTable (encRecords recs ++ (encRecord 0 0 0 ++ trailing)) = recs) ∧
    (∀ shortTail : List Nat, shortTail.length < 12 →
      parseTable (encRecords recs ++ shortTail) = recs) := by
  constructor
  · intro trailing
    apply parseTableF_encRecords recs _ _ hr
    · right
      simp only [encRecord, List.append_assoc]
      exact take4_append 0 _
    · rw [List.length_append, encRecords_length]
      omega
  · intro shortTail hshort
    apply parseTableF_encRecords recs _ _ hr
    · left; exact hshort
    · rw [List.length_append, encRecords_length]
      omega

/-- Witness for C3: a two-record table with sentinel and trailing garbage,
and the same table cut short, both parse to exactly the two records. -/

theorem c3_parse_table_sentinel_witness :
    parseTable (encRecords [(1, 36, 3), (2, 39, 2)] ++ (encRecord 0 0 0 ++ [7, 7, 7, 7, 7])) =
      [(1, 36, 3), (2, 39, 2)] ∧
    parseTable (encRecords [(1, 36, 3), (2, 39, 2)] ++ [5, 5, 5]) = [(1, 36, 3), (2, 39, 2)] :=
  ⟨(c3_parse_table_sentinel [(1, 36, 3), (2, 39, 2)] (by decide)).1 [7, 7, 7, 7, 7],
   (c3_parse_table_sentinel [(1, 36, 3), (2, 39, 2)] (by decide)).2 [5, 5, 5] (by decide)⟩

theorem packEntries_length (entries : List (Nat × List Nat)) :
    ∀ off, (packEntries entries off).length = entries.length := by
  induction entries with
  | nil => intro off; rfl
  | cons e rest ih =>
    intro off
    obtain ⟨h, data⟩ := e
    simp [packEntries, ih]

theorem packEntries_map_data (entries : List (Nat × List Nat)) :
    ∀ off, (packEntries entries off).map (fun p => p.2.2) = entries.map (fun e => e.2) := by
  induction entries with
  | nil => intro off; rfl
  | cons e rest ih =>
    intro off
    obtain ⟨h, data⟩ := e
    simp [packEntries, ih]

theorem packEntries_map_fst (entries : List (Nat × List Nat)) :
    ∀ off, (packEntries entries off).map (fun p => p.1) = entries.map (fun e => e.1) := by
  induction entries with
  | nil => intro off; rfl
  | cons e rest ih =>
    intro off
    obtain ⟨h, data⟩ := e
    simp [packEntries, ih]

/-- First assigned offset is the start value. -/

theorem packEntries_get_zero (entries : List (Nat × List Nat)) (off : Nat)
    (h0 : 0 < (packEntries entries off).length) :
    ((packEntries entries off).get ⟨0, h0⟩).2.1 = off := by
  cases entries with
  | nil => simp [packEntries] at h0
  | cons e rest =>
    obtain ⟨h, data⟩ := e
    rfl

/-- Each further offset is the previous offset plus the previous blob's
size: blobs are packed contiguously with no padding. -/

theorem packEntries_get_succ (entries : List (Nat × List Nat)) :
    ∀ (off i : Nat) (hi : i + 1 < (packEntries entries off).length),
      ((packEntries entries off).get ⟨i + 1, hi⟩).2.1 =
        ((packEntries entries off).get ⟨i, by omega⟩).2.1 +
          ((packEntries entries off).get ⟨i, by omega⟩).2.2.length := by
  induction entries with
  | nil => intro off i hi; simp [packEntries] at hi
  | cons e rest ih =>
    intro off i hi
    obtain ⟨h, data⟩ := e
    cases i with
    | zero =>
      simp only [packEntries, List.get_cons_succ]
      have h0 : 0 < (packEntries rest (off + data.length)).length := by
        simp only [packEntries, List.length_cons] at hi
        omega
      rw [packEntries_get_zero rest (off + data.length) h0]
      rfl
    | succ k =>
      simp only [packEntries, List.get_cons_succ]
      exact ih (off + data.length) k (by simp only [packEntries, List.length_cons] at hi; omega)

/-- Every packed blob is found, byte for byte, at its assigned absolute
offset in any stream that prepends exactly `off` bytes to the concatenated
blobs. -/

theorem packEntries_dataAt (entries : List (Nat × List Nat)) :
    ∀ (G : List Nat) (off : Nat), G.length = off →
      ∀ p ∈ packEntries entries off,
        dataAt (G ++ (entries.map (fun e => e.2)).flatten) p.2.1 p.2.2.length = p.2.2 := by
  induction entries with
  | nil => intro G off _ p hp; simp [packEntries] at hp
  | cons e rest ih =>
    intro G off hG p hp
    obtain ⟨h, data⟩ := e
    simp only [packEntries, List.mem_cons] at hp
    rcases hp with rfl | hp
    · simp only [List.map_cons, List.flatten_cons, dataAt]
      rw [List.drop_left' hG]
      exact List.take_left' rfl
    · have := ih (G ++ data) (off + data.length) (by simp [hG]) p hp
      simpa [List.map_cons, List.flatten_cons, List.append_assoc] using this

/-- C5: for every input list of `n` entries the writer emits, in order, the
`n` 12-byte table records, then the `(0,0,0)` sentinel record, then the `n`
blobs' raw bytes in the input order (first three conjuncts); the assigned
offsets satisfy `offset[0] = 12 * (n + 1)` and
`offset[i+1] = offset[i] + size[i]` (fourth and fifth conjuncts); and the
blobs indeed sit contiguously at the assigned offsets with no padding
(last conjunct). -/

theorem c5_writer_layout (entries : List (Nat × List Nat)) :
    (packEntries entries (12 * (entries.length + 1))).length = entries.length ∧
    encodeDat entries =
      encRecords ((packEntries entries (12 * (entries.length + 1))).map
          (fun p => (p.1, p.2.1, p.2.2.length))) ++
        encRecord 0 0 0 ++ (entries.map (fun e => e.2)).flatten ∧
    (encRecords ((packEntries entries (12 * (entries.length + 1))).map
        (fun p => (p.1, p.2.1, p.2.2.length)))).length = 12 * entries.length ∧
    (∀ h0 : 0 < (packEntries entries (12 * (entries.length + 1))).length,
      ((packEntries entries (12 * (entries.length + 1))).get ⟨0, h0⟩).2.1 =
        12 * (entries.length + 1)) ∧
    (∀ (i : Nat) (hi : i + 1 < (packEntries entries (12 * (entries.length + 1))).length),
      ((packEntries entries (12 * (entries.length + 1))).get ⟨i + 1, hi⟩).2.1 =
        ((packEntries entries (12 * (entries.length + 1))).get ⟨i, by omega⟩).2.1 +
          ((packEntries entries (12 * (entries.length + 1))).get ⟨i, by omega⟩).2.2.length) ∧
    (∀ p ∈ packEntries entries (12 * (entries.length + 1)),
      dataAt (encodeDat entries) p.2.1 p.2.2.length = p.2.2) := by
  refine ⟨packEntries_length entries _, ?_, ?_, ?_, ?_, ?_⟩
  · simp only [encodeDat, packEntries_map_data]
  · rw [encRecords_length, List.length_map, packEntries_length]
  · intro h0
    exact packEntries_get_zero entries _ h0
  · intro i hi
    exact packEntries_get_succ entries _ i hi
  · intro p hp
    have hG : (encRecords ((packEntries entries (12 * (entries.length + 1))).map
        (fun p => (p.1, p.2.1, p.2.2.length))) ++ encRecord 0 0 0).length =
          12 * (entries.length + 1) := by
      rw [List.length_append, encRecords_length, List.length_map, packEntries_length,
        encRecord_length]
      ring
    have hmain := packEntries_dataAt entries _ _ hG p hp
    simp only [encodeDat, packEntries_map_data, List.append_assoc] at *
    exact hmain

/-- Witness for C5: on the two-entry input `[(3, [9,9]), (4, [8])]` the
assigned offsets are 36 and 38 (table size `12 * 3 = 36`, second offset
`36 + 2`), and each blob is read back from its assigned offset of the
emitted stream. -/

theorem c5_writer_layout_witness :
    ((packEntries [(3, [9, 9]), (4, [8])] (12 * ([(3, [9, 9]), (4, [8])].length + 1))).get
        ⟨0, by decide⟩).2.1 = 12 * ([(3, [9, 9]), (4, [8])].length + 1) ∧
    ((packEntries [(3, [9, 9]), (4, [8])] (12 * ([(3, [9, 9]), (4, [8])].length + 1))).get
        ⟨1, by decide⟩).2.1 =
      ((packEntries [(3, [9, 9]), (4, [8])] (12 * ([(3, [9, 9]), (4, [8])].length + 1))).get
        ⟨0, by decide⟩).2.1 +
      ((packEntries [(3, [9, 9]), (4, [8])] (12 * ([(3, [9, 9]), (4, [8])].length + 1))).get
        ⟨0, by decide⟩).2.2.length ∧
    dataAt (encodeDat [(3, [9, 9]), (4, [8])]) 38 1 = [8] := by
  refine ⟨(c5_writer_layout [(3, [9, 9]), (4, [8])]).2.2.2.1 (by decide), ?_, ?_⟩
  · exact (c5_writer_layout [(3, [9, 9]), (4, [8])]).2.2.2.2.1 0 (by decide)
  · have := (c5_writer_layout [(3, [9, 9]), (4, [8])]).2.2.2.2.2 (4, 38, [8]) (by decide)
    simpa using this

theorem insertOverwrite_dict (st : HashListState) (k : Nat) (v : String) :
    (insertOverwrite st k v).dict = (k, v) :: st.dict := by
  unfold insertOverwrite
  cases st.dict.lookup k <;> rfl

/-- Looking up a key that heads the second binding of an association list
whose first two bindings share the value. -/

theorem lookup_second_same (k a : Nat) (v : String) (d : List (Nat × String)) :
    List.lookup k ((a, v) :: (k, v) :: d) = some v := by
  by_cases hka : k = a
  · subst hka; simp
  · have hf : (k == a) = false := beq_eq_false_iff_ne.mpr hka
    simp [List.lookup_cons, hf]

/-- Lookup through two freshly prepended bindings agrees with a singleton
search followed by the old lookup. -/

theorem lookup_two_cons (lo up k : Nat) (l : String) (d : List (Nat × String))
    (p : String → Bool) (hp : p l = ((ce_hash (pyLower l) == k) || (ce_hash (pyUpper l) == k)))
    (hlo : lo = ce_hash (pyLower l)) (hup : up = ce_hash (pyUpper l)) :
    List.lookup k ((up, l) :: (lo, l) :: d) = (List.find? p [l]).or (List.lookup k d) := by
  subst hlo hup
  by_cases hku : k = ce_hash (pyUpper l)
  · have h1 : (k == ce_hash (pyUpper l)) = true := beq_iff_eq.mpr hku
    have h2 : (ce_hash (pyUpper l) == k) = true := beq_iff_eq.mpr hku.symm
    simp [List.lookup_cons, List.find?_cons, hp, h1, h2]
  · have h1 : (k == ce_hash (pyUpper l)) = false := beq_eq_false_iff_ne.mpr hku
    have h2 : (ce_hash (pyUpper l) == k) = false := beq_eq_false_iff_ne.mpr (Ne.symm hku)
    by_cases hkl : k = ce_hash (pyLower l)
    · have h3 : (k == ce_hash (pyLower l)) = true := beq_iff_eq.mpr hkl
      have h4 : (ce_hash (pyLower l) == k) = true := beq_iff_eq.mpr hkl.symm
      simp [List.lookup_cons, List.find?_cons, hp, h1, h2, h3, h4]
    · have h3 : (k == ce_hash (pyLower l)) = false := beq_eq_false_iff_ne.mpr hkl
      have h4 : (ce_hash (pyLower l) == k) = false := beq_eq_false_iff_ne.mpr (Ne.symm hkl)
      simp [List.lookup_cons, List.find?_cons, hp, h1, h2, h3, h4]

/-- Lookup in the overwrite loader finds the last cleaned line whose lower-
or upper-case fingerprint is the key, falling back to the initial state. -/

theorem load_hash_list_lookup_aux :
    ∀ (lines : List String) (st : HashListState) (k : Nat),
      (lines.foldl hashListLine st).dict.lookup k =
        ((cleanedLines lines).reverse.find?
          (fun l => (ce_hash (pyLower l) == k) || (ce_hash (pyUpper l) == k))).or
          (st.dict.lookup k) := by
  intro lines
  induction lines with
  | nil => intro st k; simp [cleanedLines]
  | cons raw rest ih =>
    intro st k
    by_cases hblank : pyStrip raw = ""
    · have hstep : hashListLine st raw = st := by
        simp [hashListLine, hblank]
      have hclean : cleanedLines (raw :: rest) = cleanedLines rest := by
        simp [cleanedLines, hblank]
      simp only [List.foldl_cons, hstep, hclean]
      exact ih st k
    · have hstep : hashListLine st raw =
          insertOverwrite (insertOverwrite st (ce_hash (pyLower (pyStrip raw))) (pyStrip raw))
            (ce_hash (pyUpper (pyStrip raw))) (pyStrip raw) := by
        simp [hashListLine, hblank]
      have hclean : cleanedLines (raw :: rest) = pyStrip raw :: cleanedLines rest := by
        simp [cleanedLines, hblank]
      simp only [List.foldl_cons, hstep, hclean, List.reverse_cons, List.find?_append]
      rw [ih _ k, Option.or_assoc]
      congr 1
      simp only [insertOverwrite_dict]
      exact lookup_two_cons _ _ k (pyStrip raw) st.dict _ rfl rfl rfl

/-- C8: each stripped non-blank line `name` contributes the two mappings
`ce_hash(lower(name)) ↦ name` and `ce_hash(upper(name)) ↦ name`, and the
collision policy is overwrite-last: looking up any fingerprint in the
loaded dictionary yields the latest contributing line (first conjunct,
where the search over the reversed cleaned lines makes the overwrite-last
policy explicit). Moreover, when a line's fingerprint equals an existing
key, the new binding silently replaces the earlier one while the collision
pair is recorded in the log (second conjunct). -/

theorem c8_load_hash_list :
    (∀ (lines : List String) (k : Nat),
      (load_hash_list lines).dict.lookup k =
        (cleanedLines lines).reverse.find?
          (fun l => (ce_hash (pyLower l) == k) || (ce_hash (pyUpper l) == k))) ∧
    (∀ (st : HashListState) (l old : String),
      pyStrip l = l → l ≠ "" →
      st.dict.lookup (ce_hash (pyLower l)) = some old →
      (hashListLine st l).dict.lookup (ce_hash (pyLower l)) = some l ∧
      ∃ t, (hashListLine st l).log = st.log ++ ((old, l) :: t)) := by
  constructor
  · intro lines k
    have := load_hash_list_lookup_aux lines ⟨[], []⟩ k
    simpa [load_hash_list] using this
  · intro st l old hstrip hne hold
    have hstep : hashListLine st l =
        insertOverwrite (insertOverwrite st (ce_hash (pyLower l)) l)
          (ce_hash (pyUpper l)) l := by
      simp [hashListLine, hstrip, hne]
    have hst1 : insertOverwrite st (ce_hash (pyLower l)) l =
        ⟨(ce_hash (pyLower l), l) :: st.dict, st.log ++ [(old, l)]⟩ := by
      simp [insertOverwrite, hold]
    constructor
    · rw [hstep, insertOverwrite_dict, hst1]
      exact lookup_second_same _ _ _ _
    · rw [hstep, hst1]
      unfold insertOverwrite
      cases hlook : List.lookup (ce_hash (pyUpper l))
          ((ce_hash (pyLower l), l) :: st.dict) with
      | none => exact ⟨[], by simp⟩
      | some o2 => exact ⟨[(o2, l)], by simp⟩

/-- Witness for C8: a single-binding dictionary holding the lower-case
fingerprint of `"x"` is overwritten (and the collision logged) when the
line `"x"` is processed. -/

theorem c8_load_hash_list_witness :
    (hashListLine ⟨[(ce_hash (pyLower "x"), "old")], []⟩ "x").dict.lookup
      (ce_hash (pyLower "x")) = some "x" :=
  (c8_load_hash_list.2 ⟨[(ce_hash (pyLower "x"), "old")], []⟩ "x" "old"
    (by decide) (by decide) (by simp)).1

theorem strBytes_DDS : strBytes "DDS " = [68, 68, 83, 32] := by decide

theorem strBytes_PSF : strBytes "PSF " = [80, 83, 70, 32] := by decide

theorem strBytes_SCH : strBytes "SCH " = [83, 67, 72, 32] := by decide

theorem strBytes_EOBJ : strBytes "EOBJ" = [69, 79, 66, 74] := by decide

theorem strBytes_PNG : strBytes "PNG" = [80, 78, 71] := by decide

theorem strBytes_imgf : strBytes "imgf" = [105, 109, 103, 102] := by decide

theorem strBytes_SLOC : strBytes "SLOC" = [83, 76, 79, 67] := by decide

theorem strBytes_BM : strBytes "BM" = [66, 77] := by decide

set_option maxHeartbeats 2000000 in

/-- C9: `guess_extension` never fails — it is a total function into a fixed
set of extensions (last conjunct). Inputs shorter than 4 bytes yield
`"bin"`; a `b"DDS "` prefix yields `"dds"`; `b"PNG"` at byte positions 1..3
yields `"png"`; a `b"BM"` prefix (once 4 bytes are available, so past the
short-input rule; none of the other signature rules can match a `b"BM"`
prefix) yields `"bmp"`; and when no signature rule fires, the ASCII-decode
fallback yields `"txt"` exactly when the first 256 bytes all decode as
ASCII (byte values below 128), and `"bin"` otherwise — never an
exception. -/

theorem c9_guess_extension :
    (∀ data : List Nat, data.length < 4 → guess_extension data = "bin") ∧
    (∀ data : List Nat, data.take 4 = strBytes "DDS " → guess_extension data = "dds") ∧
    (∀ data : List Nat, 4 ≤ data.length → (data.take 4).drop 1 = strBytes "PNG" →
      guess_extension data = "png") ∧
    (∀ data : List Nat, 4 ≤ data.length → (data.take 4).take 2 = strBytes "BM" →
      guess_extension data = "bmp") ∧
    (∀ data : List Nat, 4 ≤ data.length → sigMatch data = false →
      (data.take 256).all (fun b => b < 128) = true → guess_extension data = "txt") ∧
    (∀ data : List Nat, 4 ≤ data.length → sigMatch data = false →
      (data.take 256).all (fun b => b < 128) = false → guess_extension data = "bin") ∧
    (∀ data : List Nat, guess_extension data ∈
      (["bin", "dds", "psf", "sch", "eobj", "png", "imgf", "sloc", "bmp", "txt"] :
        List String)) := by
  refine ⟨?_, ?_, ?_, ?_, ?_, ?_, ?_⟩
  · intro d h
    unfold guess_extension
    rw [if_pos h]
  · intro d h
    have hl : (strBytes "DDS ").length = 4 := by decide
    have hlen := congrArg List.length h
    rw [List.length_take, hl] at hlen
    have hlen4 : ¬ d.length < 4 := by omega
    unfold guess_extension
    rw [if_neg hlen4, if_pos h]
  · intro d hlen h
    have hlen4 : ¬ d.length < 4 := by omega
    unfold guess_extension
    rw [if_neg hlen4,
      if_neg (fun hc => absurd h (by rw [hc]; decide)),
      if_neg (fun hc => absurd h (by rw [hc]; decide)),
      if_neg (fun hc => absurd h (by rw [hc]; decide)),
      if_neg (fun hc => absurd h (by rw [hc]; decide)),
      if_pos h]
  · intro d hlen h
    rcases d with _ | ⟨a, _ | ⟨b, _ | ⟨c, _ | ⟨e, r⟩⟩⟩⟩ <;>
      simp only [List.length_nil, List.length_cons] at hlen <;> try omega
    have hab : a = 66 ∧ b = 77 := by
      rw [strBytes_BM] at h
      simpa using h
    obtain ⟨rfl, rfl⟩ := hab
    simp [guess_extension, strBytes_DDS, strBytes_PSF, strBytes_SCH, strBytes_EOBJ,
      strBytes_PNG, strBytes_imgf, strBytes_SLOC, strBytes_BM]
  · intro d hlen hs hall
    have hlen4 : ¬ d.length < 4 := by omega
    simp only [sigMatch, Bool.or_eq_false_iff, beq_eq_false_iff_ne] at hs
    obtain ⟨⟨⟨⟨⟨⟨⟨⟨h1, h2⟩, h3⟩, h4⟩, h5⟩, h6⟩, h7⟩, h8⟩, h9⟩ := hs
    unfold guess_extension
    rw [if_neg hlen4, if_neg h1, if_neg h2, if_neg h3, if_neg h4, if_neg h5, if_neg h6,
      if_neg h7, if_neg h8, if_neg h9, if_pos hall]
  · intro d hlen hs hall
    have hlen4 : ¬ d.length < 4 := by omega
    simp only [sigMatch, Bool.or_eq_false_iff, beq_eq_false_iff_ne] at hs
    obtain ⟨⟨⟨⟨⟨⟨⟨⟨h1, h2⟩, h3⟩, h4⟩, h5⟩, h6⟩, h7⟩, h8⟩, h9⟩ := hs
    unfold guess_extension
    rw [if_neg hlen4, if_neg h1, if_neg h2, if_neg h3, if_neg h4, if_neg h5, if_neg h6,
      if_neg h7, if_neg h8, if_neg h9, if_neg (by simp [hall])]
  · intro d
    unfold guess_extension
    simp only [strBytes_DDS, strBytes_PSF, strBytes_SCH, strBytes_EOBJ, strBytes_PNG,
      strBytes_imgf, strBytes_SLOC, strBytes_BM]
    repeat' split
    all_goals decide

/-- Witness for C9: one concrete input per rule — a 2-byte high-byte input,
the DDS tag, a PNG tag at offset 1, a BM prefix, 5 printable ASCII bytes,
and 4 high bytes. -/

theorem c9_guess_extension_witness :
    guess_extension [255, 255] = "bin" ∧
    guess_extension [68, 68, 83, 32] = "dds" ∧
    guess_extension [0, 80, 78, 71] = "png" ∧
    guess_extension [66, 77, 0, 0] = "bmp" ∧
    guess_extension [72, 101, 108, 108, 111] = "txt" ∧
    guess_extension [200, 200, 200, 200] = "bin" :=
  ⟨c9_guess_extension.1 _ (by decide),
   c9_guess_extension.2.1 _ (by decide),
   c9_guess_extension.2.2.1 _ (by decide) (by decide),
   c9_guess_extension.2.2.2.1 _ (by decide) (by decide),
   c9_guess_extension.2.2.2.2.1 _ (by decide) (by decide) (by decide),
   c9_guess_extension.2.2.2.2.2.1 _ (by decide) (by decide) (by decide)⟩

theorem encRecord_append_length (h o s : Nat) (tail : List Nat) :
    (encRecord h o s ++ tail).length = 12 + tail.length := by
  simp [encRecord_length]

theorem encRecord_append_take4 (h o s : Nat) (tail : List Nat) :
    (encRecord h o s ++ tail).take 4 = u32le h := by
  simp only [encRecord, List.append_assoc]
  exact take4_append h _

theorem encRecord_append_drop4 (h o s : Nat) (tail : List Nat) :
    (encRecord h o s ++ tail).drop 4 = u32le o ++ (u32le s ++ tail) := by
  simp only [encRecord, List.append_assoc]
  exact drop4_append h _

theorem encRecord_append_drop8 (h o s : Nat) (tail : List Nat) :
    (encRecord h o s ++ tail).drop 8 = u32le s ++ tail := by
  have h84 : (8 : Nat) = 4 + 4 := rfl
  rw [h84, ← List.drop_drop, encRecord_append_drop4]
  exact drop4_append o _

theorem encRecord_append_drop12 (h o s : Nat) (tail : List Nat) :
    (encRecord h o s ++ tail).drop 12 = tail := by
  have h128 : (12 : Nat) = 8 + 4 := rfl
  rw [h128, ← List.drop_drop, encRecord_append_drop8]
  exact drop4_append s _

/-- The loop stops on a short tail or a zero fingerprint field. -/

theorem undatLoopF_stop (A : List Nat) (fuel : Nat) (rest : List Nat) (st : UndatState)
    (hstop : rest.length < 12 ∨ rest.take 4 = u32le 0) :
    undatLoopF A fuel rest st = st := by
  cases fuel with
  | zero => rfl
  | succ fuel =>
    rcases hstop with hshort | hzero
    · simp [undatLoopF, hshort]
    · unfold undatLoopF
      by_cases hlen : rest.length < 12
      · simp [hlen]
      · simp only [if_neg hlen, hzero]
        rw [if_pos (by simp [readU32, u32le])]

/-- A record whose fingerprint was already processed is skipped: loop
cursor advances, state unchanged. -/

theorem undatLoopF_step_skip (A : List Nat) (fuel h o s : Nat) (tail : List Nat)
    (st : UndatState) (hh : h < 4294967296) (hnz : h ≠ 0) (hseen : h ∈ st.seen) :
    undatLoopF A (fuel + 1) (encRecord h o s ++ tail) st =
      undatLoopF A fuel tail st := by
  have hlen : ¬ (encRecord h o s ++ tail).length < 12 := by
    rw [encRecord_append_length]; omega
  simp only [undatLoopF, if_neg hlen, encRecord_append_take4, readU32_u32le hh,
    if_neg hnz, encRecord_append_drop12]
  rw [if_pos hseen]

/-- Processing a fresh fingerprint that the catalog resolves: the sanitized
catalog name is written with the blob read from the record's absolute
offset, the fingerprint is marked processed, and the catalog and the
append log are untouched. -/

theorem undatLoopF_step_known (A : List Nat) (fuel h o s : Nat) (tail : List Nat)
    (st : UndatState) (name : String)
    (hh : h < 4294967296) (ho : o < 4294967296) (hs : s < 4294967296)
    (hnz : h ≠ 0) (hseen : h ∉ st.seen) (hname : st.nameMap.lookup h = some name) :
    undatLoopF A (fuel + 1) (encRecord h o s ++ tail) st =
      undatLoopF A fuel tail
        { st with
          seen := h :: st.seen
          writes := st.writes ++ [(sanitizeName name, dataAt A o s)] } := by
  have hlen : ¬ (encRecord h o s ++ tail).length < 12 := by
    rw [encRecord_append_length]; omega
  simp only [undatLoopF, if_neg hlen, encRecord_append_take4, readU32_u32le hh,
    if_neg hnz, encRecord_append_drop4, encRecord_append_drop8, encRecord_append_drop12,
    take4_append, readU32_u32le ho, readU32_u32le hs]
  rw [if_neg hseen, hname]

/-- Processing a fresh fingerprint the catalog does not resolve, whose blob
sniffs as `eobj` with a recoverable internal name: the mapping is learned,
the two companion lines are appended, and the blob is written under the
sanitized internal name with extension `.EVO`. -/

theorem undatLoopF_step_learn (A : List Nat) (fuel h o s : Nat) (tail : List Nat)
    (st : UndatState)
    (hh : h < 4294967296) (ho : o < 4294967296) (hs : s < 4294967296)
    (hnz : h ≠ 0) (hseen : h ∉ st.seen) (hmiss : st.nameMap.lookup h = none)
    (heobj : guess_extension (dataAt A o s) = "eobj")
    (hpn : extract_eobj_internal_name (dataAt A o s) ≠ "") :
    undatLoopF A (fuel + 1) (encRecord h o s ++ tail) st =
      undatLoopF A fuel tail
        { nameMap := st.nameMap ++ [(h, extract_eobj_internal_name (dataAt A o s))]
          appended := st.appended ++
            [extract_eobj_internal_name (dataAt A o s) ++ ".EVO",
             extract_eobj_internal_name (dataAt A o s) ++ ".DDS"]
          writes := st.writes ++
            [(sanitizeName (extract_eobj_internal_name (dataAt A o s)) ++ ".EVO",
              dataAt A o s)]
          seen := h :: st.seen } := by
  have hlen : ¬ (encRecord h o s ++ tail).length < 12 := by
    rw [encRecord_append_length]; omega
  simp only [undatLoopF, if_neg hlen, encRecord_append_take4, readU32_u32le hh,
    if_neg hnz, encRecord_append_drop4, encRecord_append_drop8, encRecord_append_drop12,
    take4_append, readU32_u32le ho, readU32_u32le hs]
  rw [if_neg hseen, hmiss]
  simp [heobj, hpn]

/-- Whatever branch a fresh in-bounds record takes, exactly one file write
occurs, carrying the blob at the record's offset/size, and the fingerprint
is marked processed. -/

theorem undatLoopF_step_processes (A : List Nat) (fuel h o s : Nat) (tail : List Nat)
    (st : UndatState)
    (hh : h < 4294967296) (ho : o < 4294967296) (hs : s < 4294967296)
    (hnz : h ≠ 0) (hseen : h ∉ st.seen) :
    ∃ st' : UndatState,
      undatLoopF A (fuel + 1) (encRecord h o s ++ tail) st =
        undatLoopF A fuel tail st' ∧
      st'.seen = h :: st.seen ∧
      ∃ nm, st'.writes = st.writes ++ [(nm, dataAt A o s)] := by
  have hlen : ¬ (encRecord h o s ++ tail).length < 12 := by
    rw [encRecord_append_length]; omega
  cases hname : st.nameMap.lookup h with
  | some name =>
    refine ⟨{ st with
        seen := h :: st.seen
        writes := st.writes ++ [(sanitizeName name, dataAt A o s)] },
      undatLoopF_step_known A fuel h o s tail st name hh ho hs hnz hseen hname,
      rfl, sanitizeName name, rfl⟩
  | none =>
    by_cases heobj : guess_extension (dataAt A o s) = "eobj"
    · by_cases hpn : extract_eobj_internal_name (dataAt A o s) = ""
      · refine ⟨{ st with
            seen := h :: st.seen
            writes := st.writes ++ [(toString h ++ ".eobj", dataAt A o s)] },
            ?_, rfl, toString h ++ ".eobj", rfl⟩
        simp only [undatLoopF, if_neg hlen, encRecord_append_take4, readU32_u32le hh,
          if_neg hnz, encRecord_append_drop4, encRecord_append_drop8,
          encRecord_append_drop12, take4_append, readU32_u32le ho, readU32_u32le hs]
        rw [if_neg hseen, hname]
        simp [heobj, hpn]
      · refine ⟨{ nameMap := st.nameMap ++ [(h, extract_eobj_internal_name (dataAt A o s))]
                  appended := st.appended ++
                    [extract_eobj_internal_name (dataAt A o s) ++ ".EVO",
                     extract_eobj_internal_name (dataAt A o s) ++ ".DDS"]
                  writes := st.writes ++
                    [(sanitizeName (extract_eobj_internal_name (dataAt A o s)) ++ ".EVO",
                      dataAt A o s)]
                  seen := h :: st.seen },
          undatLoopF_step_learn A fuel h o s tail st hh ho hs hnz hseen hname heobj hpn,
          rfl, sanitizeName (extract_eobj_internal_name (dataAt A o s)) ++ ".EVO", rfl⟩
    · refine ⟨{ st with
          seen := h :: st.seen
          writes := st.writes ++
            [(toString h ++ "." ++ guess_extension (dataAt A o s), dataAt A o s)] },
          ?_, rfl, toString h ++ "." ++ guess_extension (dataAt A o s), rfl⟩
      simp only [undatLoopF, if_neg hlen, encRecord_append_take4, readU32_u32le hh,
        if_neg hnz, encRecord_append_drop4, encRecord_append_drop8,
        encRecord_append_drop12, take4_append, readU32_u32le ho, readU32_u32le hs]
      rw [if_neg hseen, hname]
      simp [heobj]

/-- Running the loop over a stream of fresh, catalog-resolved records with
pairwise distinct fingerprints: each record produces exactly one write
carrying the sanitized catalog name and the blob at its offset/size, in
table order; the in-memory catalog and the append log are untouched. -/

theorem undatLoopF_known_list (A : List Nat) :
    ∀ (recs : List (Nat × Nat × Nat)) (fuel : Nat) (suffix : List Nat) (st : UndatState),
      (∀ r ∈ recs, r.1 ≠ 0 ∧ r.1 < 4294967296 ∧ r.2.1 < 4294967296 ∧ r.2.2 < 4294967296) →
      (recs.map (fun r => r.1)).Nodup →
      (∀ r ∈ recs, r.1 ∉ st.seen) →
      (∀ r ∈ recs, (st.nameMap.lookup r.1).isSome) →
      (suffix.length < 12 ∨ suffix.take 4 = u32le 0) →
      recs.length < fuel →
      undatLoopF A fuel (encRecords recs ++ suffix) st =
        { st with
          seen := (recs.map (fun r => r.1)).reverse ++ st.seen
          writes := st.writes ++ recs.map (fun r =>
            (sanitizeName ((st.nameMap.lookup r.1).getD ""), dataAt A r.2.1 r.2.2)) } := by
  intro recs
  induction recs with
  | nil =>
    intro fuel suffix st _ _ _ _ hstop _
    have hrun : undatLoopF A fuel (encRecords [] ++ suffix) st = st := by
      simpa [encRecords] using undatLoopF_stop A fuel suffix st hstop
    rw [hrun]
    simp
  | cons r recs ih =>
    intro fuel suffix st hr hnd hseen hres hstop hfuel
    obtain ⟨h, o, s⟩ := r
    cases fuel with
    | zero => omega
    | succ fuel =>
      have hr0 := hr (h, o, s) (List.mem_cons_self _ _)
      obtain ⟨name, hname⟩ :=
        Option.isSome_iff_exists.mp (hres (h, o, s) (List.mem_cons_self _ _))
      have hnd' : (h :: recs.map (fun r => r.1)).Nodup := by simpa using hnd
      have hndc := List.nodup_cons.mp hnd'
      have hrw : encRecords ((h, o, s) :: recs) ++ suffix =
          encRecord h o s ++ (encRecords recs ++ suffix) := by
        simp [encRecords, List.append_assoc]
      rw [hrw, undatLoopF_step_known A fuel h o s _ st name hr0.2.1 hr0.2.2.1 hr0.2.2.2
        hr0.1 (hseen _ (List.mem_cons_self _ _)) hname]
      rw [ih fuel suffix _ (fun x hx => hr x (List.mem_cons_of_mem _ hx)) hndc.2 ?_ ?_
        hstop (by simpa using Nat.lt_of_succ_lt_succ hfuel)]
      · simp [hname, List.append_assoc]
      · intro x hx
        simp only [List.mem_cons, not_or]
        constructor
        · intro hxh
          exact hndc.1 (hxh ▸ List.mem_map_of_mem (fun r => r.1) hx)
        · exact hseen x (List.mem_cons_of_mem _ hx)
      · intro x hx
        exact hres x (List.mem_cons_of_mem _ hx)

/-- C4: when the same nonzero fingerprint heads two table records of one
archive (with different offset/size), the extractor produces exactly one
file write for it, whose data is the blob of the first record in table
order; the second record is silently skipped (it advances the cursor but
changes nothing). The name list is arbitrary. -/

theorem c4_duplicate_first_wins (lines : List String) (h o1 s1 o2 s2 : Nat)
    (suffix : List Nat)
    (hh : h < 4294967296) (ho1 : o1 < 4294967296) (hs1 : s1 < 4294967296)
    (ho2 : o2 < 4294967296) (hs2 : s2 < 4294967296) (hnz : h ≠ 0)
    (hdiff : (o1, s1) ≠ (o2, s2))
    (hstop : suffix.length < 12 ∨ suffix.take 4 = u32le 0) :
    ∃ nm, (undatMain (encRecord h o1 s1 ++ (encRecord h o2 s2 ++ suffix)) lines).writes =
      [(nm, dataAt (encRecord h o1 s1 ++ (encRecord h o2 s2 ++ suffix)) o1 s1)] := by
  have hlenA : (encRecord h o1 s1 ++ (encRecord h o2 s2 ++ suffix)).length =
      24 + suffix.length := by
    rw [encRecord_append_length, encRecord_append_length]
    omega
  obtain ⟨f, hf⟩ : ∃ f,
      (encRecord h o1 s1 ++ (encRecord h o2 s2 ++ suffix)).length / 12 + 1 = f + 3 :=
    ⟨suffix.length / 12, by omega⟩
  unfold undatMain
  rw [hf]
  obtain ⟨st', hstep, hseen', nm, hw⟩ :=
    undatLoopF_step_processes (encRecord h o1 s1 ++ (encRecord h o2 s2 ++ suffix))
      (f + 2) h o1 s1 (encRecord h o2 s2 ++ suffix)
      ⟨load_filenames_list lines, [], [], []⟩ hh ho1 hs1 hnz (by simp)
  rw [show f + 3 = f + 2 + 1 from rfl, hstep,
    show f + 2 = f + 1 + 1 from rfl,
    undatLoopF_step_skip _ (f + 1) h o2 s2 suffix st' hh hnz (by rw [hseen']; simp),
    undatLoopF_stop _ (f + 1) suffix st' hstop]
  refine ⟨nm, ?_⟩
  rw [hw]
  simp

/-- Witness for C4: the two-record archive with duplicate fingerprint 7 and
an empty name list; only the first record's blob (bytes 30..31 of the
archive) is extracted. -/

theorem c4_duplicate_first_wins_witness :
    ∃ nm, (undatMain (encRecord 7 36 2 ++ (encRecord 7 38 1 ++
        (encRecord 0 0 0 ++ [10, 20, 30]))) []).writes =
      [(nm, dataAt (encRecord 7 36 2 ++ (encRecord 7 38 1 ++
        (encRecord 0 0 0 ++ [10, 20, 30]))) 36 2)] :=
  c4_duplicate_first_wins [] 7 36 2 38 1 (encRecord 0 0 0 ++ [10, 20, 30])
    (by decide) (by decide) (by decide) (by decide) (by decide) (by decide) (by decide)
    (Or.inr (by decide))

theorem sanitizeName_data (s : String) :
    (sanitizeName s).data = s.data.filter (fun c => !badChar c) := rfl

/-- C10: whenever the extractor resolves an entry's fingerprint to a
catalog name, the write uses the sanitized name (first conjunct, shown for
a one-record archive with an arbitrary resolved name); sanitizing deletes
exactly the occurrences of the reserved characters `<>:"/\|?*` (second
conjunct); in particular the written name contains no `/` and no `\`, so a
resolved name with directory separators becomes a single flattened
filename directly under the output directory instead of recreating its
subdirectories (third and fourth conjuncts). -/

theorem c10_sanitize_flattens (lines : List String) (h o s : Nat) (tail : List Nat)
    (name : String)
    (hh : h < 4294967296) (ho : o < 4294967296) (hs : s < 4294967296) (hnz : h ≠ 0)
    (hname : (load_filenames_list lines).lookup h = some name)
    (hstop : tail.length < 12 ∨ tail.take 4 = u32le 0) :
    (undatMain (encRecord h o s ++ tail) lines).writes =
      [(sanitizeName name, dataAt (encRecord h o s ++ tail) o s)] ∧
    (∀ c : Char, c ∈ (sanitizeName name).data ↔ (c ∈ name.data ∧ badChar c = false)) ∧
    '/' ∉ (sanitizeName name).data ∧ '\\' ∉ (sanitizeName name).data := by
  refine ⟨?_, ?_, ?_, ?_⟩
  · have hA : encRecord h o s ++ tail = encRecords [(h, o, s)] ++ tail := by
      simp [encRecords]
    have hlen : (encRecord h o s ++ tail).length = 12 + tail.length :=
      encRecord_append_length h o s tail
    unfold undatMain
    rw [hA, undatLoopF_known_list (encRecords [(h, o, s)] ++ tail) [(h, o, s)] _ tail
      ⟨load_filenames_list lines, [], [], []⟩
      (by intro r hr; simp at hr; subst hr; exact ⟨hnz, hh, ho, hs⟩)
      (by simp)
      (by simp)
      (by intro r hr; simp at hr; subst hr; simp [hname])
      hstop
      (by rw [← hA, hlen]; simp only [List.length_cons, List.length_nil]; omega)]
    simp [hname]
  · intro c
    rw [sanitizeName_data, List.mem_filter]
    simp
  · intro hc
    rw [sanitizeName_data, List.mem_filter] at hc
    have hbad : badChar '/' = true := by decide
    simp [hbad] at hc
  · intro hc
    rw [sanitizeName_data, List.mem_filter] at hc
    have hbad : badChar '\\' = true := by decide
    simp [hbad] at hc

set_option maxRecDepth 40000 in

/-- Witness for C10: the catalog resolves the fingerprint of `"a/b"` to
that name, and the extracted file is written as the flattened `"ab"`
directly under the output directory. -/

theorem c10_sanitize_flattens_witness :
    (undatMain (encRecord (ce_hash (pyLower "a/b")) 24 2 ++ encRecord 0 0 0)
        ["a/b"]).writes =
      [(sanitizeName "a/b",
        dataAt (encRecord (ce_hash (pyLower "a/b")) 24 2 ++ encRecord 0 0 0) 24 2)] ∧
    '/' ∉ (sanitizeName "a/b").data :=
  ⟨(c10_sanitize_flattens ["a/b"] (ce_hash (pyLower "a/b")) 24 2 (encRecord 0 0 0) "a/b"
      (ce_hash_lt _) (by decide) (by decide) (by decide) (by decide)
      (Or.inr (by decide))).1,
   (c10_sanitize_flattens ["a/b"] (ce_hash (pyLower "a/b")) 24 2 (encRecord 0 0 0) "a/b"
      (ce_hash_lt _) (by decide) (by decide) (by decide) (by decide)
      (Or.inr (by decide))).2.2.1⟩

theorem lookup_append (k : Nat) (l1 l2 : List (Nat × String)) :
    List.lookup k (l1 ++ l2) = (List.lookup k l1).or (List.lookup k l2) := by
  induction l1 with
  | nil => simp
  | cons e t ih =>
    obtain ⟨a, b⟩ := e
    by_cases hk : k = a
    · subst hk; simp [List.lookup_cons]
    · have hf : (k == a) = false := beq_eq_false_iff_ne.mpr hk
      simp [List.lookup_cons, hf, ih]

theorem insertKeepFirst_lookup_none (d : List (Nat × String)) (k k' : Nat) (v : String)
    (hne : k ≠ k') (hnone : d.lookup k = none) :
    (insertKeepFirst d k' v).lookup k = none := by
  unfold insertKeepFirst
  cases hl : d.lookup k' with
  | some w => exact hnone
  | none =>
    rw [lookup_append, hnone]
    have hf : (k == k') = false := beq_eq_false_iff_ne.mpr hne
    simp [List.lookup_cons, hf]

/-- A fingerprint that is neither the lower- nor the upper-case hash of any
cleaned line is absent from the keep-first loaded catalog. -/

theorem load_filenames_list_aux_none :
    ∀ (lines : List String) (d : List (Nat × String)) (k : Nat),
      d.lookup k = none →
      (∀ l ∈ cleanedLines lines, ce_hash (pyLower l) ≠ k ∧ ce_hash (pyUpper l) ≠ k) →
      (lines.foldl
        (fun d raw =>
          let line := pyStrip raw
          if line = "" then d
          else insertKeepFirst (insertKeepFirst d (ce_hash (pyLower line)) line)
            (ce_hash (pyUpper line)) line) d).lookup k = none := by
  intro lines
  induction lines with
  | nil => intro d k hnone _; exact hnone
  | cons raw rest ih =>
    intro d k hnone hlines
    by_cases hblank : pyStrip raw = ""
    · simp only [List.foldl_cons, hblank, if_pos rfl]
      exact ih d k hnone fun l hl =>
        hlines l (by simp [cleanedLines, hblank] at hl ⊢; simpa [cleanedLines] using hl)
    · have hmem : pyStrip raw ∈ cleanedLines (raw :: rest) := by
        simp [cleanedLines, hblank]
      obtain ⟨hlo, hup⟩ := hlines _ hmem
      simp only [List.foldl_cons, if_neg hblank]
      refine ih _ k ?_ fun l hl => hlines l ?_
      · exact insertKeepFirst_lookup_none _ k _ _ (Ne.symm hup)
          (insertKeepFirst_lookup_none _ k _ _ (Ne.symm hlo) hnone)
      · simp [cleanedLines] at hl ⊢
        exact ⟨Or.inr hl.1, hl.2⟩

set_option maxRecDepth 200000 in

set_option maxHeartbeats 2000000 in

/-- Counterexample for C7: an archive whose single record has fingerprint 5
and whose blob is an `EOBJ` header followed by the internal name `"Foo"`.
The sniff-and-learn path runs: exactly the two companion lines are appended
and the in-memory map gains `5 ↦ "Foo"` (first two conjuncts) — but a
subsequent catalog load of the appended lines does NOT resolve the blob's
fingerprint 5 at all (third conjunct), because the loaded keys are the
case-variant hashes of `"Foo.EVO"`/`"Foo.DDS"`, none of which is 5; the
claim's "a subsequent catalog load resolves that blob's fingerprint to the
recovered name" is therefore false as stated. -/

theorem c7_self_learning_counterexample :
    (undatMain (encRecord 5 24 12 ++ (encRecord 0 0 0 ++
        (strBytes "EOBJ" ++ ([1, 1, 1, 1] ++ (strBytes "Foo" ++ [0]))))) []).appended =
      ["Foo.EVO", "Foo.DDS"] ∧
    (undatMain (encRecord 5 24 12 ++ (encRecord 0 0 0 ++
        (strBytes "EOBJ" ++ ([1, 1, 1, 1] ++ (strBytes "Foo" ++ [0]))))) []).nameMap =
      [(5, "Foo")] ∧
    (load_filenames_list ((undatMain (encRecord 5 24 12 ++ (encRecord 0 0 0 ++
        (strBytes "EOBJ" ++ ([1, 1, 1, 1] ++ (strBytes "Foo" ++ [0]))))) []).appended)).lookup
      5 = none := by
  refine ⟨?_, ?_, ?_⟩ <;> decide

/-- C7 as amended: sniffing an embedded-object blob with a recoverable
internal name appends exactly the two companion lines `name.EVO`,
`name.DDS` to the backing list and the in-memory mapping gains
`fingerprint ↦ name` (first conjunct, for a one-record archive and any
catalog missing the fingerprint). A subsequent catalog load of the two
appended lines, however, keys the entries under the case-variant hashes of
the companion lines themselves: it resolves the blob's fingerprint only if
that fingerprint happens to equal one of those four hashes — any other
fingerprint resolves to nothing (second conjunct) — and even then to the
companion line, not the bare recovered name. -/

theorem c7_self_learning_amended :
    (∀ (lines : List String) (h o s : Nat) (tail : List Nat),
      h < 4294967296 → o < 4294967296 → s < 4294967296 → h ≠ 0 →
      (load_filenames_list lines).lookup h = none →
      guess_extension (dataAt (encRecord h o s ++ tail) o s) = "eobj" →
      extract_eobj_internal_name (dataAt (encRecord h o s ++ tail) o s) ≠ "" →
      (tail.length < 12 ∨ tail.take 4 = u32le 0) →
      (undatMain (encRecord h o s ++ tail) lines).appended =
        [extract_eobj_internal_name (dataAt (encRecord h o s ++ tail) o s) ++ ".EVO",
         extract_eobj_internal_name (dataAt (encRecord h o s ++ tail) o s) ++ ".DDS"] ∧
      (undatMain (encRecord h o s ++ tail) lines).nameMap =
        load_filenames_list lines ++
          [(h, extract_eobj_internal_name (dataAt (encRecord h o s ++ tail) o s))]) ∧
    (∀ (pn : String) (k : Nat),
      k ≠ ce_hash (pyLower (pyStrip (pn ++ ".EVO"))) →
      k ≠ ce_hash (pyUpper (pyStrip (pn ++ ".EVO"))) →
      k ≠ ce_hash (pyLower (pyStrip (pn ++ ".DDS"))) →
      k ≠ ce_hash (pyUpper (pyStrip (pn ++ ".DDS"))) →
      (load_filenames_list [pn ++ ".EVO", pn ++ ".DDS"]).lookup k = none) := by
  constructor
  · intro lines h o s tail hh ho hs hnz hmiss heobj hpn hstop
    obtain ⟨f, hf⟩ : ∃ f, (encRecord h o s ++ tail).length / 12 + 1 = f + 1 :=
      ⟨(encRecord h o s ++ tail).length / 12, rfl⟩
    unfold undatMain
    rw [hf, undatLoopF_step_learn _ f h o s tail _ hh ho hs hnz (by simp) hmiss heobj hpn,
      undatLoopF_stop _ f tail _ hstop]
    exact ⟨rfl, rfl⟩
  · intro pn k h1 h2 h3 h4
    unfold load_filenames_list
    refine load_filenames_list_aux_none [pn ++ ".EVO", pn ++ ".DDS"] [] k rfl ?_
    intro l hl
    have hcase : l = pyStrip (pn ++ ".EVO") ∨ l = pyStrip (pn ++ ".DDS") := by
      simp only [cleanedLines, List.map_cons, List.map_nil, List.mem_filter,
        List.mem_cons, List.not_mem_nil, or_false] at hl
      rcases hl.1 with hx | hx
      · exact Or.inl hx
      · exact Or.inr hx
    rcases hcase with rfl | rfl
    · exact ⟨Ne.symm h1, Ne.symm h2⟩
    · exact ⟨Ne.symm h3, Ne.symm h4⟩

set_option maxRecDepth 200000 in

set_option maxHeartbeats 2000000 in

/-- Witness for the amended C7: the `"Foo"` archive of the counterexample
instantiates the learning conjunct, and fingerprint 5 instantiates the
resolves-nothing conjunct. -/

theorem c7_self_learning_amended_witness :
    (undatMain (encRecord 5 24 12 ++ (encRecord 0 0 0 ++
        (strBytes "EOBJ" ++ ([1, 1, 1, 1] ++ (strBytes "Foo" ++ [0]))))) []).appended =
      [extract_eobj_internal_name (dataAt (encRecord 5 24 12 ++ (encRecord 0 0 0 ++
        (strBytes "EOBJ" ++ ([1, 1, 1, 1] ++ (strBytes "Foo" ++ [0]))))) 24 12) ++ ".EVO",
       extract_eobj_internal_name (dataAt (encRecord 5 24 12 ++ (encRecord 0 0 0 ++
        (strBytes "EOBJ" ++ ([1, 1, 1, 1] ++ (strBytes "Foo" ++ [0]))))) 24 12) ++ ".DDS"] ∧
    (load_filenames_list ["Foo" ++ ".EVO", "Foo" ++ ".DDS"]).lookup 5 = none :=
  ⟨(c7_self_learning_amended.1 [] 5 24 12
      (encRecord 0 0 0 ++ (strBytes "EOBJ" ++ ([1, 1, 1, 1] ++ (strBytes "Foo" ++ [0]))))
      (by decide) (by decide) (by decide) (by decide) (by decide) (by decide) (by decide)
      (Or.inr (by decide))).1,
   c7_self_learning_amended.2 "Foo" 5 (by decide) (by decide) (by decide) (by decide)⟩

/-- A file the catalog cannot resolve and whose stem is not numeric makes
the entry-collection loop raise. -/

theorem resolveFiles_error (d : List (Nat × String)) :
    ∀ files : List (String × List Nat),
      (∃ f ∈ files, redatResolve d f.1 = none) →
      ∃ e, resolveFiles d files = .error e := by
  intro files
  induction files with
  | nil => rintro ⟨f, hf, -⟩; exact absurd hf (List.not_mem_nil f)
  | cons x rest ih =>
    rintro ⟨f, hf, hres⟩
    obtain ⟨rp, data⟩ := x
    rcases List.mem_cons.mp hf with rfl | hfr
    · refine ⟨"ValueError: invalid literal for int() with base 10: " ++ splitStem rp, ?_⟩
      simp only [resolveFiles, hres]
    · cases hr : redatResolve d rp with
      | none =>
        refine ⟨"ValueError: invalid literal for int() with base 10: " ++ splitStem rp, ?_⟩
        simp only [resolveFiles, hr]
      | some h =>
        obtain ⟨e, he⟩ := ih ⟨f, hfr, hres⟩
        refine ⟨e, ?_⟩
        simp only [resolveFiles, hr, he, Except.map]

/-- C6 as amended: during repack, a file whose relative path is not in the
catalog's reverse index and whose filename stem is not a valid literal
decimal fingerprint makes `int(...)` raise an uncaught `ValueError`: the
whole repack aborts with that error and no archive is produced — the file
is not skipped, no later file is processed, and no summary is emitted. -/

theorem c6_unresolved_aborts (lines : List String) (files : List (String × List Nat))
    (hbad : ∃ f ∈ files, inMappedFiles (load_hash_list lines).dict f.1 = false ∧
      pyIntNat (splitStem f.1) = none) :
    ∃ e, redatBuild lines files = .error e := by
  obtain ⟨f, hf, hmf, hint⟩ := hbad
  have hres : redatResolve (load_hash_list lines).dict f.1 = none := by
    simp [redatResolve, hmf, hint]
  obtain ⟨e, he⟩ := resolveFiles_error (load_hash_list lines).dict files ⟨f, hf, hres⟩
  refine ⟨e, ?_⟩
  simp only [redatBuild, he]

/-- Counterexample for C6: on a tree holding the uncatalogued `"foo.bin"`
followed by the perfectly resolvable `"5.bin"`, the repack returns the
raised `ValueError` — no structured per-file report, no skipping, no
continuation with the remaining file, no summary, no archive. -/

theorem c6_unresolved_aborts_counterexample :
    redatBuild [] [("foo.bin", [1]), ("5.bin", [2])] =
      .error "ValueError: invalid literal for int() with base 10: foo" := rfl

/-- Witness for the amended C6 at the counterexample's input. -/

theorem c6_unresolved_aborts_witness :
    ∃ e, redatBuild [] [("foo.bin", [1]), ("5.bin", [2])] = .error e :=
  c6_unresolved_aborts [] [("foo.bin", [1]), ("5.bin", [2])]
    ⟨("foo.bin", [1]), by decide, by decide, by decide⟩

/-- When every gathered file is catalog-known, entry collection succeeds
and assigns `ce_hash(lower(relpath))` to each file in order. -/

theorem resolveFiles_ok (d : List (Nat × String)) :
    ∀ files : List (String × List Nat),
      (∀ f ∈ files, inMappedFiles d f.1 = true) →
      resolveFiles d files = .ok (files.map (fun f => (ce_hash (pyLower f.1), f.2))) := by
  intro files
  induction files with
  | nil => intro _; rfl
  | cons x rest ih =>
    intro hmap
    obtain ⟨rp, data⟩ := x
    have hx : redatResolve d rp = some (ce_hash (pyLower rp)) := by
      simp [redatResolve, hmap (rp, data) (List.mem_cons_self _ _)]
    simp only [resolveFiles, hx, ih (fun f hf => hmap f (List.mem_cons_of_mem _ hf)),
      Except.map, List.map_cons]

/-- When every gathered file is catalog-known and the total output fits in
32 bits, the repack succeeds and emits the canonical layout. -/

theorem redatBuild_ok (lines : List String) (files : List (String × List Nat))
    (hmap : ∀ f ∈ files, inMappedFiles (load_hash_list lines).dict f.1 = true)
    (hbound : 12 * (files.length + 1) + (files.map (fun f => f.2.length)).sum < 4294967296) :
    redatBuild lines files =
      .ok (encodeDat (files.map (fun f => (ce_hash (pyLower f.1), f.2)))) := by
  have hall : ((files.map (fun f => (ce_hash (pyLower f.1), f.2))).all
      (fun e => e.1 < 4294967296)) = true := by
    rw [List.all_eq_true]
    intro e he
    obtain ⟨f, hf, rfl⟩ := List.mem_map.mp he
    exact decide_eq_true (ce_hash_lt _)
  have hsum : 12 * ((files.map (fun f => (ce_hash (pyLower f.1), f.2))).length + 1) +
      ((files.map (fun f => (ce_hash (pyLower f.1), f.2))).map
        (fun e => e.2.length)).sum < 4294967296 := by
    rw [List.length_map, List.map_map]
    exact hbound
  simp only [redatBuild, resolveFiles_ok _ files hmap]
  rw [if_pos ⟨hall, hsum⟩]

/-- Every assigned offset plus its blob size stays within the start value
plus the total blob size. -/

theorem packEntries_offset_le (entries : List (Nat × List Nat)) :
    ∀ (start : Nat) (p : Nat × Nat × List Nat), p ∈ packEntries entries start →
      p.2.1 + p.2.2.length ≤ start + (entries.map (fun e => e.2.length)).sum := by
  induction entries with
  | nil => intro start p hp; simp [packEntries] at hp
  | cons e rest ih =>
    intro start p hp
    obtain ⟨h, data⟩ := e
    simp only [packEntries, List.mem_cons] at hp
    rcases hp with rfl | hp
    · simp only [List.map_cons, List.sum_cons]
      omega
    · have := ih (start + data.length) p hp
      simp only [List.map_cons, List.sum_cons]
      omega

/-- Mapping the extractor's write function over the packed table of a
rebuilt archive recovers the original (relative path, data) files, provided
the catalog resolves each rebuilt fingerprint back to its path, the paths
need no sanitizing, and each blob is found at its assigned offset. -/

theorem packed_writes_eq (M : List (Nat × String)) (A2 : List Nat) :
    ∀ (files : List (String × List Nat)) (start : Nat),
      (∀ f ∈ files, M.lookup (ce_hash (pyLower f.1)) = some f.1 ∧
        sanitizeName f.1 = f.1) →
      (∀ p ∈ packEntries (files.map (fun f => (ce_hash (pyLower f.1), f.2))) start,
        dataAt A2 p.2.1 p.2.2.length = p.2.2) →
      (((packEntries (files.map (fun f => (ce_hash (pyLower f.1), f.2))) start).map
        (fun p => (p.1, p.2.1, p.2.2.length))).map
        (fun r => (sanitizeName ((M.lookup r.1).getD ""), dataAt A2 r.2.1 r.2.2))) =
        files := by
  intro files
  induction files with
  | nil => intro start _ _; rfl
  | cons f rest ih =>
    intro start hres hdata
    obtain ⟨nm, data⟩ := f
    have hhead := hres (nm, data) (List.mem_cons_self _ _)
    have hdhead : dataAt A2 start data.length = data := by
      have := hdata (ce_hash (pyLower nm), start, data) (by simp [packEntries])
      simpa using this
    simp only [List.map_cons, packEntries, List.map_cons]
    rw [ih (start + data.length) (fun x hx => hres x (List.mem_cons_of_mem _ hx))
      (fun p hp => hdata p (by simp [packEntries]; exact Or.inr hp))]
    simp [hhead.1, hhead.2, hdhead]

/-- C1: round trip. Take any archive laid out as a table of well-formed
nonzero records with distinct fingerprints followed by a stopper (sentinel
record or short tail) and blob bytes, and a name list covering all
relative paths used on both sides: every archive fingerprint resolves to a
catalog name (`hres`), the resolved names need no sanitizing (`hclean`, so
the extracted tree carries them verbatim), the builder's reverse index
knows each extracted path (`hmapd`), and the rebuilt fingerprints
`ce_hash(lower(path))` are nonzero, pairwise distinct and resolve back to
the same paths (`hnz2`, `hnd2`, `hcover`); the rebuilt archive must also
fit in 32-bit offsets (`hbound`). Then running the Builder on the
directory tree produced by the Extractor succeeds, and the rebuilt archive
reproduces the original blobs byte-identically under the original relative
paths: extracting it again yields exactly the same (path, data) writes. -/

theorem c1_round_trip (lines : List String) (recs : List (Nat × Nat × Nat))
    (suffix : List Nat)
    (hstop : suffix.length < 12 ∨ suffix.take 4 = u32le 0)
    (hr : ∀ r ∈ recs, r.1 ≠ 0 ∧ r.1 < 4294967296 ∧ r.2.1 < 4294967296 ∧ r.2.2 < 4294967296)
    (hnd : (recs.map (fun r => r.1)).Nodup)
    (hres : ∀ r ∈ recs, ((load_filenames_list lines).lookup r.1).isSome)
    (hclean : ∀ r ∈ recs,
      sanitizeName (((load_filenames_list lines).lookup r.1).getD "") =
        ((load_filenames_list lines).lookup r.1).getD "")
    (hmapd : ∀ r ∈ recs, inMappedFiles (load_hash_list lines).dict
      (((load_filenames_list lines).lookup r.1).getD "") = true)
    (hcover : ∀ r ∈ recs, (load_filenames_list lines).lookup
      (ce_hash (pyLower (((load_filenames_list lines).lookup r.1).getD ""))) =
      some (((load_filenames_list lines).lookup r.1).getD ""))
    (hnz2 : ∀ r ∈ recs,
      ce_hash (pyLower (((load_filenames_list lines).lookup r.1).getD "")) ≠ 0)
    (hnd2 : (recs.map (fun r =>
      ce_hash (pyLower (((load_filenames_list lines).lookup r.1).getD "")))).Nodup)
    (hbound : 12 * (recs.length + 1) +
      (recs.map (fun r => (dataAt (encRecords recs ++ suffix) r.2.1 r.2.2).length)).sum <
        4294967296) :
    ∃ A2, redatBuild lines (undatMain (encRecords recs ++ suffix) lines).writes = .ok A2 ∧
      (undatMain A2 lines).writes = (undatMain (encRecords recs ++ suffix) lines).writes := by
  -- Step 1: the first extraction writes the catalog names with the blobs.
  have hw1 : (undatMain (encRecords recs ++ suffix) lines).writes =
      recs.map (fun r => (((load_filenames_list lines).lookup r.1).getD "",
        dataAt (encRecords recs ++ suffix) r.2.1 r.2.2)) := by
    unfold undatMain
    rw [undatLoopF_known_list (encRecords recs ++ suffix) recs _ suffix
      ⟨load_filenames_list lines, [], [], []⟩ hr hnd (by simp) hres hstop
      (by rw [List.length_append, encRecords_length]; omega)]
    simp only [List.nil_append]
    exact List.map_congr_left (fun r hrm => by rw [hclean r hrm])
  -- The extracted tree.
  set files : List (String × List Nat) :=
    recs.map (fun r => (((load_filenames_list lines).lookup r.1).getD "",
      dataAt (encRecords recs ++ suffix) r.2.1 r.2.2)) with hfiles
  -- The rebuilt entries.
  set entries : List (Nat × List Nat) :=
    files.map (fun f => (ce_hash (pyLower f.1), f.2)) with hentries
  have hentries2 : entries = recs.map (fun r =>
      (ce_hash (pyLower (((load_filenames_list lines).lookup r.1).getD "")),
        dataAt (encRecords recs ++ suffix) r.2.1 r.2.2)) := by
    rw [hentries, hfiles, List.map_map]
    rfl
  have hentlen : entries.length = recs.length := by
    rw [hentries2, List.length_map]
  have hsizes : (entries.map (fun e => e.2.length)).sum =
      (recs.map (fun r => (dataAt (encRecords recs ++ suffix) r.2.1 r.2.2).length)).sum := by
    rw [hentries2, List.map_map]
    rfl
  -- Step 2: the repack succeeds.
  have hw2 : redatBuild lines files = .ok (encodeDat entries) := by
    rw [hentries]
    apply redatBuild_ok
    · intro f hf
      rw [hfiles] at hf
      obtain ⟨r, hrm, rfl⟩ := List.mem_map.mp hf
      exact hmapd r hrm
    · rw [hfiles, List.length_map, List.map_map]
      exact hbound
  -- Step 3: extracting the rebuilt archive returns the same files.
  refine ⟨encodeDat entries, by rw [← hw1] at hw2; exact hw2, ?_⟩
  rw [hw1]
  -- Shape of the rebuilt archive.
  have hA2 : encodeDat entries =
      encRecords ((packEntries entries (12 * (entries.length + 1))).map
        (fun p => (p.1, p.2.1, p.2.2.length))) ++
      (encRecord 0 0 0 ++
        ((packEntries entries (12 * (entries.length + 1))).map (fun p => p.2.2)).flatten) := by
    simp [encodeDat, List.append_assoc]
  -- Fingerprints of the packed table.
  have hfst : ((packEntries entries (12 * (entries.length + 1))).map
      (fun p => (p.1, p.2.1, p.2.2.length))).map (fun r => r.1) =
      recs.map (fun r =>
        ce_hash (pyLower (((load_filenames_list lines).lookup r.1).getD ""))) := by
    rw [List.map_map]
    have : ((packEntries entries (12 * (entries.length + 1))).map
        (fun p => p.1)) = entries.map (fun e => e.1) := packEntries_map_fst entries _
    calc ((packEntries entries (12 * (entries.length + 1))).map
          ((fun r => r.1) ∘ (fun p => ((p.1 : Nat), p.2.1, p.2.2.length))))
        = (packEntries entries (12 * (entries.length + 1))).map (fun p => p.1) := rfl
      _ = entries.map (fun e => e.1) := this
      _ = recs.map (fun r =>
          ce_hash (pyLower (((load_filenames_list lines).lookup r.1).getD ""))) := by
          rw [hentries2, List.map_map]; rfl
  have hmemfst : ∀ p ∈ packEntries entries (12 * (entries.length + 1)),
      p.1 ∈ entries.map (fun e => e.1) := by
    intro p hp
    rw [← packEntries_map_fst entries (12 * (entries.length + 1))]
    exact List.mem_map_of_mem _ hp
  -- Bounds for the packed records.
  have hoffb : ∀ p ∈ packEntries entries (12 * (entries.length + 1)),
      p.2.1 < 4294967296 ∧ p.2.2.length < 4294967296 := by
    intro p hp
    have := packEntries_offset_le entries (12 * (entries.length + 1)) p hp
    rw [hsizes, hentlen] at this
    omega
  have hw3 : (undatMain (encodeDat entries) lines).writes = files := by
    unfold undatMain
    rw [hA2, undatLoopF_known_list _
      ((packEntries entries (12 * (entries.length + 1))).map
        (fun p => (p.1, p.2.1, p.2.2.length))) _ _
      ⟨load_filenames_list lines, [], [], []⟩ ?hb ?hn (by simp) ?hs
      (Or.inr (encRecord_append_take4 0 0 0 _)) ?hf]
    case hb =>
      intro r2 hr2
      obtain ⟨p, hp, rfl⟩ := List.mem_map.mp hr2
      have hp1 := hmemfst p hp
      rw [hentries2, List.map_map] at hp1
      obtain ⟨r, hrm, hpr⟩ := List.mem_map.mp hp1
      have hoff := hoffb p hp
      refine ⟨?_, ?_, hoff.1, hoff.2⟩
      · simp only
        rw [← hpr]
        exact hnz2 r hrm
      · simp only
        rw [← hpr]
        exact ce_hash_lt _
    case hn =>
      rw [hfst]
      exact hnd2
    case hs =>
      intro r2 hr2
      obtain ⟨p, hp, rfl⟩ := List.mem_map.mp hr2
      have hp1 := hmemfst p hp
      rw [hentries2, List.map_map] at hp1
      obtain ⟨r, hrm, hpr⟩ := List.mem_map.mp hp1
      have hpr2 : ce_hash (pyLower (((load_filenames_list lines).lookup r.1).getD "")) =
          p.1 := hpr
      simp only
      rw [← hpr2, hcover r hrm]
      rfl
    case hf =>
      rw [← hA2]
      have hlenA2 : (encodeDat entries).length =
          12 * (entries.length + 1) +
            ((packEntries entries (12 * (entries.length + 1))).map
              (fun p => p.2.2)).flatten.length := by
        rw [hA2, List.length_append, List.length_append, encRecords_length,
          List.length_map, packEntries_length, encRecord_length]
        omega
      rw [List.length_map, packEntries_length, hlenA2]
      omega
    simp only [List.nil_append]
    rw [hfiles]
    apply packed_writes_eq
    · intro f hf
      rw [hfiles] at hf
      obtain ⟨r, hrm, rfl⟩ := List.mem_map.mp hf
      exact ⟨hcover r hrm, hclean r hrm⟩
    · intro p hp
      have hG : (encRecords ((packEntries entries (12 * (entries.length + 1))).map
          (fun p => (p.1, p.2.1, p.2.2.length))) ++ encRecord 0 0 0).length =
            12 * (entries.length + 1) := by
        rw [List.length_append, encRecords_length, List.length_map, packEntries_length,
          encRecord_length]
        ring
      have hp2 : p ∈ packEntries entries (12 * (entries.length + 1)) := by
        rw [hentries]; exact hp
      have hmain := packEntries_dataAt entries _ _ hG p hp2
      rw [show (packEntries entries (12 * (entries.length + 1))).map (fun p => p.2.2) =
        entries.map (fun e => e.2) from packEntries_map_data entries _]
      simpa [List.append_assoc] using hmain
  exact hw3

set_option maxRecDepth 200000 in

set_option maxHeartbeats 1000000 in

/-- Witness for C1: a one-blob archive whose fingerprint is the lower-case
hash of the catalog name `"a"`; the repack of its extraction succeeds and
re-extracting the rebuilt archive reproduces the same write. -/

theorem c1_round_trip_witness :
    ∃ A2, redatBuild ["a"]
        (undatMain (encRecords [(ce_hash (pyLower "a"), 24, 1)] ++
          (encRecord 0 0 0 ++ [65])) ["a"]).writes = .ok A2 ∧
      (undatMain A2 ["a"]).writes =
        (undatMain (encRecords [(ce_hash (pyLower "a"), 24, 1)] ++
          (encRecord 0 0 0 ++ [65])) ["a"]).writes :=
  c1_round_trip ["a"] [(ce_hash (pyLower "a"), 24, 1)] (encRecord 0 0 0 ++ [65])
    (Or.inr (by decide)) (by decide) (by decide) (by decide) (by decide) (by decide)
    (by decide) (by decide) (by decide) (by decide)
